import Mathlib

/-!
Shallow embedding of `replay.py`: a family of experience-replay buffers for
reinforcement-learning agents.

Modelling conventions:
* States and actions are natural numbers (they index the occurrence tables of
  the Rarity and Threshold policies); rewards and priority values are exact
  rationals, standing for the Python floats in exact arithmetic.
* The priority transform `(|signal| + E) ** alpha` is modelled with a natural
  exponent `alpha : ℕ` (exact arithmetic over ℚ does not support arbitrary real
  exponents; all transform-generic facts are proved for an arbitrary transform
  `prio : ℚ → ℚ`, which also covers the Softmax policy's `exp(|signal|)`).
* Mutation of `self` becomes explicit state passing; Python exceptions become
  `Option` (`none` = the call raises, leaving the instance unmodified, since in
  the source every raising expression is evaluated before any field is written).
-/

/-- One stored experience: a `(state, action, reward, next_state)` tuple. -/
structure Transition where
  state : ℕ
  action : ℕ
  reward : ℚ
  next_state : ℕ
deriving DecidableEq, Repr

/-- State of `ExperienceReplay`: a fixed-capacity ring buffer plus the write
cursor `next_index`. -/
structure ERState where
  buffer_size : ℕ
  buffer : List Transition
  next_index : ℕ
deriving DecidableEq, Repr

/-- Fresh `ExperienceReplay(buffer_size)`. -/
def freshER (B : ℕ) : ERState :=
  { buffer_size := B, buffer := [], next_index := 0 }

/-- Embeds `ExperienceReplay.store`: write at `next_index` (overwrite when the
cursor is inside the current buffer, append otherwise), then advance the cursor
modulo `buffer_size`. -/
def erStore (s : ERState) (t : Transition) : ERState :=
  if s.next_index < s.buffer.length then
    { s with buffer := s.buffer.set s.next_index t,
             next_index := (s.next_index + 1) % s.buffer_size }
  else
    { s with buffer := s.buffer ++ [t],
             next_index := (s.next_index + 1) % s.buffer_size }

/-- Folds `ExperienceReplay.store` over a list of transitions. -/
def erStoreMany (s : ERState) (L : List Transition) : ERState :=
  L.foldl erStore s

/-- Embeds `ExperienceReplay.sample`: `np.random.randint(len(buffer))` raises on
an empty range, otherwise yields a value in `[0, len(buffer))`; the external
draw is modelled by reducing `r` modulo the buffer length. -/
def erSample (s : ERState) (r : ℕ) : Option ℕ :=
  if s.buffer.length = 0 then none else some (r % s.buffer.length)

/-- State of `PrioritizedER` (shared, via inheritance, by the Asymmetric,
Rarity, Threshold and Softmax policies): the ring buffer plus the parallel
priority table and the cached running sum. The hyperparameters `alpha`, `E`
enter only through the priority transform, passed as a function parameter. -/
structure PERState where
  buffer_size : ℕ
  buffer : List Transition
  next_index : ℕ
  priorities : List ℚ
  priority_sum : ℚ
deriving DecidableEq, Repr

/-- Fresh `PrioritizedER(buffer_size, alpha, E)`. -/
def freshPER (B : ℕ) : PERState :=
  { buffer_size := B, buffer := [], next_index := 0, priorities := [],
    priority_sum := 0 }

/-- Embeds the priority transform of `PrioritizedER`:
`p = abs(TDerror) + E; prob = p ** alpha` (natural exponent, see header). -/
def prioTransform (alpha : ℕ) (E : ℚ) (sig : ℚ) : ℚ :=
  (|sig| + E) ^ alpha

/-- Embeds `PrioritizedER.store`, generic in the priority transform `prio`:
overwrite or append the transition, adjust `priority_sum` by the delta
`prob - priorities[next_index]` (overwrite) or by `prob` (append), update the
priority slot, advance the cursor. -/
def perStore (prio : ℚ → ℚ) (s : PERState) (t : Transition) (sig : ℚ) :
    PERState :=
  let p := prio sig
  if s.next_index < s.buffer.length then
    { s with buffer := s.buffer.set s.next_index t,
             priority_sum := s.priority_sum + (p - s.priorities.getD s.next_index 0),
             priorities := s.priorities.set s.next_index p,
             next_index := (s.next_index + 1) % s.buffer_size }
  else
    { s with buffer := s.buffer ++ [t],
             priorities := s.priorities ++ [p],
             priority_sum := s.priority_sum + p,
             next_index := (s.next_index + 1) % s.buffer_size }

/-- Folds `PrioritizedER.store` over a list of (transition, signal) pairs. -/
def perStoreMany (prio : ℚ → ℚ) (s : PERState) (ps : List (Transition × ℚ)) :
    PERState :=
  ps.foldl (fun st p => perStore prio st p.1 p.2) s

/-- Embeds `PrioritizedER.updatePriority` for an in-range index: adjust
`priority_sum` by the delta and overwrite `priorities[idx]`. -/
def perUpdatePriority (prio : ℚ → ℚ) (s : PERState) (idx : ℕ) (sig : ℚ) :
    PERState :=
  { s with priority_sum := s.priority_sum + (prio sig - s.priorities.getD idx 0),
           priorities := s.priorities.set idx (prio sig) }

/-- Python list-index resolution: `xs[i]` for a list of length `n` accepts
`-n <= i < n`, mapping negative `i` to `n + i`, and raises `IndexError`
otherwise. -/
def pyIndex (n : ℕ) (i : ℤ) : Option ℕ :=
  if 0 ≤ i ∧ i < (n : ℤ) then some i.toNat
  else if -(n : ℤ) ≤ i ∧ i < 0 then some ((n : ℤ) + i).toNat
  else none

/-- Embeds `PrioritizedER.updatePriority` with Python's actual list-index
semantics: an index outside `[-n, n)` raises (`none`) before any field is
written; an index in `[-n, 0)` aliases slot `n + idx`. -/
def perUpdatePriorityChecked (prio : ℚ → ℚ) (s : PERState) (i : ℤ) (sig : ℚ) :
    Option PERState :=
  match pyIndex s.priorities.length i with
  | none => none
  | some k => some (perUpdatePriority prio s k sig)

/-- Embeds the signal preprocessing of `AsymmetricPrioritizedER`: a negative
signal is multiplied by `penalty` before the priority is computed. -/
def asymSignal (penalty sig : ℚ) : ℚ :=
  if sig < 0 then penalty * sig else sig

/-- Embeds `AsymmetricPrioritizedER.store`: preprocess the signal, then delegate
to the base `store`. -/
def asymStore (penalty : ℚ) (prio : ℚ → ℚ) (s : PERState) (t : Transition)
    (sig : ℚ) : PERState :=
  perStore prio s t (asymSignal penalty sig)

/-- Embeds `AsymmetricPrioritizedER.updatePriority`: preprocess the signal, then
delegate to the base `updatePriority`. -/
def asymUpdatePriority (penalty : ℚ) (prio : ℚ → ℚ) (s : PERState) (idx : ℕ)
    (sig : ℚ) : PERState :=
  perUpdatePriority prio s idx (asymSignal penalty sig)

/-- Priority actually stored by the Asymmetric policy for a given signal, with
the concrete base transform. -/
def asymPriority (penalty : ℚ) (alpha : ℕ) (E sig : ℚ) : ℚ :=
  prioTransform alpha E (asymSignal penalty sig)

/-- Embeds `np.cumsum`: the list of prefix sums (first entry included, no
leading zero). -/
def cumsum : List ℚ → List ℚ
  | [] => []
  | x :: xs => x :: (cumsum xs).map (fun y => x + y)

/-- Probability mass function built by `PrioritizedER.sample`: every priority
divided by the cached `priority_sum`. -/
def pmfOf (s : PERState) : List ℚ :=
  s.priorities.map (fun p => p / s.priority_sum)

/-- Embeds `PrioritizedER.sample` with the uniform draw `u` passed explicitly:
`idx = sum(cmf < u)`, the count of cumulative-mass entries strictly below `u`. -/
def perSample (s : PERState) (u : ℚ) : ℕ :=
  (cumsum (pmfOf s)).countP (fun x => decide (x < u))

/-- Embeds the `proportion` list of `RarePrioritizedER.sample`: a rarity weight
`1 / F[state, action] ** 1` for every buffered transition. -/
def rarityWeights (F : ℕ → ℕ → ℚ) (buf : List Transition) : List ℚ :=
  buf.map (fun t => 1 / (F t.state t.action) ^ 1)

/-- Embeds `np.multiply(self.priorities, self.proportion)`. -/
def rarityModified (s : PERState) (F : ℕ → ℕ → ℚ) : List ℚ :=
  List.zipWith (fun p w => p * w) s.priorities (rarityWeights F s.buffer)

/-- Embeds the normalisation `modified_prior / sum(modified_prior)` of
`RarePrioritizedER.sample`: the pmf is taken over the modified priorities, not
the raw ones. -/
def rarityPmf (s : PERState) (F : ℕ → ℕ → ℚ) : List ℚ :=
  (rarityModified s F).map (fun p => p / (rarityModified s F).sum)

/-- Embeds `RarePrioritizedER.sample` with the draw `u` explicit. -/
def raritySample (s : PERState) (F : ℕ → ℕ → ℚ) (u : ℚ) : ℕ :=
  (cumsum (rarityPmf s F)).countP (fun x => decide (x < u))

/-- Embeds `RarePrioritizedER.store`: delegate to the base `store`, then
increment the occurrence count of the stored (state, action) pair. -/
def rarityStore (prio : ℚ → ℚ) (s : PERState) (t : Transition) (sig : ℚ)
    (F : ℕ → ℕ → ℚ) : PERState × (ℕ → ℕ → ℚ) :=
  (perStore prio s t sig,
   fun a b => if a = t.state ∧ b = t.action then F a b + 1 else F a b)
/-- Embeds the `is_counted` mask of `ThresholdPrioritizedER.sample`: 1 for a
buffered transition whose pair has been sampled fewer than `threshold` times,
0 otherwise. -/
def thresholdMask (U : ℕ → ℕ → ℕ) (th : ℕ) (buf : List Transition) : List ℚ :=
  buf.map (fun t => if U t.state t.action < th then (1 : ℚ) else 0)

/-- Embeds `np.multiply(self.priorities, self.is_counted)`. -/
def thresholdModified (s : PERState) (U : ℕ → ℕ → ℕ) (th : ℕ) : List ℚ :=
  List.zipWith (fun p m => p * m) s.priorities (thresholdMask U th s.buffer)

/-- Embeds the pmf choice of `ThresholdPrioritizedER.sample`: when the masked
sum is zero fall back to the unmasked priority distribution (normalised by the
recomputed `sum(self.priorities)`), otherwise normalise the masked vector. -/
def thresholdPmf (s : PERState) (U : ℕ → ℕ → ℕ) (th : ℕ) : List ℚ :=
  if (thresholdModified s U th).sum = 0 then
    s.priorities.map (fun p => p / s.priorities.sum)
  else
    (thresholdModified s U th).map (fun p => p / (thresholdModified s U th).sum)

/-- Index computed by `ThresholdPrioritizedER.sample` before the counter
update. -/
def thresholdIdx (s : PERState) (U : ℕ → ℕ → ℕ) (th : ℕ) (u : ℚ) : ℕ :=
  (cumsum (thresholdPmf s U th)).countP (fun x => decide (x < u))

/-- Embeds `ThresholdPrioritizedER.sample` with the draw `u` explicit: select
the index by cumulative-mass inversion, then increment the sampled pair's
count (`none` models the `IndexError` raised by `self.buffer[idx]` when the
index falls outside the buffer). -/
def thresholdSample (s : PERState) (U : ℕ → ℕ → ℕ) (th : ℕ) (u : ℚ) :
    Option (ℕ × (ℕ → ℕ → ℕ)) :=
  match s.buffer[thresholdIdx s U th u]? with
  | none => none
  | some t => some (thresholdIdx s U th u,
      fun a b => if a = t.state ∧ b = t.action then U a b + 1 else U a b)
/-- Concrete single-slot prioritized state used to witness the sampling
theorems. -/
def cdfWitnessState : PERState :=
  { buffer_size := 1, buffer := [⟨0, 0, 0, 0⟩], next_index := 0,
    priorities := [1], priority_sum := ([1] : List ℚ).sum }
/-- Occurrence-count table used to witness C6: pair (0, 0) seen once, every
other pair ten times. -/
def rarityWitnessF : ℕ → ℕ → ℚ :=
  fun a _ => if a = 0 then 1 else 10

/-- Buffered state used to witness C6: two transitions with equal priority. -/
def rarityWitnessState : PERState :=
  { buffer_size := 2, buffer := [⟨0, 0, 0, 0⟩, ⟨1, 0, 0, 1⟩], next_index := 0,
    priorities := [2, 2], priority_sum := ([2, 2] : List ℚ).sum }

/-- One call against a priority-based policy: a `store` with a transition and a
signal, or an `updatePriority` with an index and a signal. -/
inductive ReplayOp where
  | store (t : Transition) (sig : ℚ)
  | update (idx : ℕ) (sig : ℚ)
deriving DecidableEq, Repr

/-- Applies one call to a `PERState`. -/
def applyOp (prio : ℚ → ℚ) (s : PERState) : ReplayOp → PERState
  | .store t sig => perStore prio s t sig
  | .update idx sig => perUpdatePriority prio s idx sig

/-- Applies a sequence of calls to a `PERState`. -/
def applyOps (prio : ℚ → ℚ) (s : PERState) (ops : List ReplayOp) : PERState :=
  ops.foldl (applyOp prio) s

/-- Checks that every `updatePriority` call in the sequence is made with an
in-range index at the moment it is applied. -/
def opsInRange (prio : ℚ → ℚ) (s : PERState) : List ReplayOp → Bool
  | [] => true
  | .store t sig :: rest => opsInRange prio (perStore prio s t sig) rest
  | .update idx sig :: rest =>
      decide (idx < s.priorities.length) &&
        opsInRange prio (perUpdatePriority prio s idx sig) rest

/-- Structural well-formedness of a `PERState`: the priority table is parallel
to the buffer and the cached sum agrees with the table. -/
def SumInv (s : PERState) : Prop :=
  s.priorities.length = s.buffer.length ∧ s.priority_sum = s.priorities.sum
/-- Projection from the prioritized state onto the plain ring-buffer state. -/
def toER (s : PERState) : ERState :=
  { buffer_size := s.buffer_size, buffer := s.buffer, next_index := s.next_index }

/-! ### Asymmetric policy: behaviour on non-negative signals and penalty facts -/

theorem asymSignal_of_nonneg (penalty sig : ℚ) (h : 0 ≤ sig) :
    asymSignal penalty sig = sig := by
  simp [asymSignal, not_lt.mpr h]

/-- C10: for every non-negative signal the Asymmetric policy's `store` and
`updatePriority` produce exactly the same resulting state (buffer, priorities,
priority_sum, next_index) as the base priority-weighted policy with the same
arguments: the penalty factor only changes behaviour for strictly negative
signals. -/
theorem asym_eq_base_of_nonneg_signal (penalty : ℚ) (prio : ℚ → ℚ)
    (s : PERState) (t : Transition) (idx : ℕ) (sig : ℚ) (h : 0 ≤ sig) :
    asymStore penalty prio s t sig = perStore prio s t sig ∧
      asymUpdatePriority penalty prio s idx sig = perUpdatePriority prio s idx sig := by
  rw [asymStore, asymUpdatePriority, asymSignal_of_nonneg penalty sig h]
  exact ⟨rfl, rfl⟩

/-- Witness for C10 at a concrete input. -/
theorem asym_eq_base_of_nonneg_signal_witness :
    (0 : ℚ) ≤ 0 ∧
      (asymStore (1/2) (prioTransform 1 (1/100)) (freshPER 2) ⟨0, 0, 0, 0⟩ 0 =
          perStore (prioTransform 1 (1/100)) (freshPER 2) ⟨0, 0, 0, 0⟩ 0 ∧
        asymUpdatePriority (1/2) (prioTransform 1 (1/100)) (freshPER 2) 0 0 =
          perUpdatePriority (prioTransform 1 (1/100)) (freshPER 2) 0 0) :=
  ⟨le_refl 0,
   asym_eq_base_of_nonneg_signal (1/2) (prioTransform 1 (1/100)) (freshPER 2)
     ⟨0, 0, 0, 0⟩ 0 0 (le_refl 0)⟩

/-- C7 counterexample: as stated (only `penalty < 1`, no constraint on the sign
of `penalty` or on `alpha`), the monotonicity claim is false. With
`penalty = -2 < 1`, `x = 1 > 0`, `alpha = 1`, `E = 1/100` the stored priority
for signal `-x` is `201/100`, strictly larger than the `101/100` stored for
`+x`; and with `penalty = 1/2 ∈ (0,1)` but `alpha = 0` both priorities are `1`,
so the inequality is not strict. -/
theorem asym_penalty_claim_counterexample :
    ((-2 : ℚ) < 1 ∧ (0 : ℚ) < 1 ∧
      ¬ asymPriority (-2) 1 (1/100) (-1) < asymPriority (-2) 1 (1/100) 1) ∧
    ((0 : ℚ) < 1/2 ∧ (1 : ℚ)/2 < 1 ∧ (0 : ℚ) < 1 ∧
      ¬ asymPriority (1/2) 0 (1/100) (-1) < asymPriority (1/2) 0 (1/100) 1) := by
  constructor
  · refine ⟨by norm_num, by norm_num, ?_⟩
    norm_num [asymPriority, prioTransform, asymSignal]
  · refine ⟨by norm_num, by norm_num, by norm_num, ?_⟩
    norm_num [asymPriority, prioTransform, asymSignal]

/-- C7 (amended): for `0 < penalty < 1`, `x > 0`, `E ≥ 0` and `alpha ≥ 1`, the
Asymmetric policy stores a strictly lower priority for signal `-x` than for
`+x`: the negative signal is multiplied by `penalty` before the transform
`(|signal| + E) ^ alpha` is applied, the non-negative one passes through
unchanged. -/
theorem asym_penalty_monotone (penalty x E : ℚ) (alpha : ℕ)
    (hp0 : 0 < penalty) (hp1 : penalty < 1) (hx : 0 < x) (hE : 0 ≤ E)
    (ha : 1 ≤ alpha) :
    asymPriority penalty alpha E (-x) < asymPriority penalty alpha E x := by
  have hneg : -x < 0 := neg_neg_iff_pos.mpr hx
  have h1 : asymSignal penalty (-x) = penalty * -x := by
    simp [asymSignal, hneg]
  have h2 : asymSignal penalty x = x := asymSignal_of_nonneg penalty x hx.le
  rw [asymPriority, asymPriority, h1, h2, prioTransform, prioTransform,
    abs_of_pos hx]
  have habs : |penalty * -x| = penalty * x := by
    rw [abs_mul, abs_neg, abs_of_pos hp0, abs_of_pos hx]
  rw [habs]
  have hb1 : 0 ≤ penalty * x + E := by positivity
  have hb2 : penalty * x + E < x + E := by
    have : penalty * x < x := by
      calc penalty * x < 1 * x := by exact mul_lt_mul_of_pos_right hp1 hx
        _ = x := one_mul x
    linarith
  exact pow_lt_pow_left₀ hb2 hb1 (by omega)

/-- Witness for the amended C7 at a concrete input. -/
theorem asym_penalty_monotone_witness :
    (0 : ℚ) < 1/2 ∧ (1 : ℚ)/2 < 1 ∧ (0 : ℚ) < 1 ∧ (0 : ℚ) ≤ 0 ∧ 1 ≤ 1 ∧
      asymPriority (1/2) 1 0 (-1) < asymPriority (1/2) 1 0 1 :=
  ⟨one_half_pos, one_half_lt_one, one_pos, le_refl 0, le_refl 1,
   asym_penalty_monotone (1/2) 1 0 1 one_half_pos one_half_lt_one one_pos
     (le_refl 0) (le_refl 1)⟩

/-! ### End-to-end scenario (C4) -/

/-- C4: with `buffer_size = 3`, `alpha = 1`, `E = 1/100`, after storing four
transitions with signals 1, 2, 3, 4, slot 0 of the buffer holds the 4th
transition and `priority_sum` is exactly the sum of the priorities
`(|signal| + E) ^ alpha` of transitions 2, 3 and 4 — transition 1's priority
has been removed from the sum. -/
theorem end_to_end_scenario :
    (perStoreMany (prioTransform 1 (1/100)) (freshPER 3)
        [(⟨1, 0, 0, 0⟩, 1), (⟨2, 0, 0, 0⟩, 2), (⟨3, 0, 0, 0⟩, 3),
         (⟨4, 0, 0, 0⟩, 4)]).buffer.get? 0 = some ⟨4, 0, 0, 0⟩ ∧
    (perStoreMany (prioTransform 1 (1/100)) (freshPER 3)
        [(⟨1, 0, 0, 0⟩, 1), (⟨2, 0, 0, 0⟩, 2), (⟨3, 0, 0, 0⟩, 3),
         (⟨4, 0, 0, 0⟩, 4)]).priority_sum =
      prioTransform 1 (1/100) 2 + prioTransform 1 (1/100) 3 +
        prioTransform 1 (1/100) 4 := by
  norm_num [perStoreMany, perStore, freshPER, prioTransform]

/-! ### Priority-sum consistency (C1) -/


theorem sumInv_fresh (B : ℕ) : SumInv (freshPER B) := by
  constructor <;> rfl

theorem sumInv_perStore (prio : ℚ → ℚ) (s : PERState) (t : Transition) (sig : ℚ)
    (h : SumInv s) : SumInv (perStore prio s t sig) := by
  obtain ⟨hlen, hsum⟩ := h
  unfold perStore
  by_cases hc : s.next_index < s.buffer.length
  · have hc' : s.next_index < s.priorities.length := hlen ▸ hc
    simp only [hc, if_true]
    refine ⟨by simp [hlen], ?_⟩
    rw [List.sum_set' s.priorities s.next_index (prio sig)]
    rw [dif_pos hc', hsum, List.getD_eq_getElem s.priorities 0 hc']
    ring
  · simp only [hc, if_false]
    refine ⟨by simp [hlen], ?_⟩
    simp [hsum]

theorem sumInv_perUpdatePriority (prio : ℚ → ℚ) (s : PERState) (idx : ℕ)
    (sig : ℚ) (hidx : idx < s.priorities.length) (h : SumInv s) :
    SumInv (perUpdatePriority prio s idx sig) := by
  obtain ⟨hlen, hsum⟩ := h
  refine ⟨by simp [perUpdatePriority, hlen], ?_⟩
  simp only [perUpdatePriority]
  rw [List.sum_set' s.priorities idx (prio sig)]
  rw [dif_pos hidx, hsum, List.getD_eq_getElem s.priorities 0 hidx]
  ring

theorem sumInv_applyOps (prio : ℚ → ℚ) (s : PERState) (ops : List ReplayOp)
    (hok : opsInRange prio s ops = true) (h : SumInv s) :
    SumInv (applyOps prio s ops) := by
  induction ops generalizing s with
  | nil => exact h
  | cons op rest ih =>
      cases op with
      | store t sig =>
          rw [opsInRange] at hok
          exact ih (applyOp prio s (.store t sig)) hok
            (sumInv_perStore prio s t sig h)
      | update idx sig =>
          rw [opsInRange, Bool.and_eq_true] at hok
          obtain ⟨hop, hrest⟩ := hok
          exact ih (applyOp prio s (.update idx sig)) hrest
            (sumInv_perUpdatePriority prio s idx sig (by simpa using hop) h)

/-- C1: for every priority-based policy (the theorem is generic in the priority
transform `prio`, which instantiates to `(|signal| + E) ^ alpha` for the
Prioritized, Asymmetric — after its signal preprocessing —, Rarity and
Threshold policies and to `exp |signal|` for Softmax), after any sequence of
`store` and `updatePriority` calls with in-range indices starting from a fresh
instance, the cached `priority_sum` equals the exact sum of the priorities
table. The maintenance is purely incremental: `perStore` and
`perUpdatePriority` only ever add the delta `prob - priorities[idx]` (or the
appended priority) to the cached field and never rescan the table. -/
theorem priority_sum_consistency (prio : ℚ → ℚ) (B : ℕ) (ops : List ReplayOp)
    (hok : opsInRange prio (freshPER B) ops = true) :
    (applyOps prio (freshPER B) ops).priority_sum =
      (applyOps prio (freshPER B) ops).priorities.sum :=
  (sumInv_applyOps prio (freshPER B) ops hok (sumInv_fresh B)).2

/-- Witness for C1: a concrete sequence of two stores, one in-range update and
an overwriting store on a capacity-2 instance. -/
theorem priority_sum_consistency_witness :
    opsInRange (prioTransform 1 1) (freshPER 2)
        [.store ⟨0, 0, 0, 0⟩ 1, .store ⟨1, 1, 0, 1⟩ (-2), .update 0 3,
         .store ⟨2, 0, 0, 2⟩ 4] = true ∧
      (applyOps (prioTransform 1 1) (freshPER 2)
          [.store ⟨0, 0, 0, 0⟩ 1, .store ⟨1, 1, 0, 1⟩ (-2), .update 0 3,
           .store ⟨2, 0, 0, 2⟩ 4]).priority_sum =
        (applyOps (prioTransform 1 1) (freshPER 2)
            [.store ⟨0, 0, 0, 0⟩ 1, .store ⟨1, 1, 0, 1⟩ (-2), .update 0 3,
             .store ⟨2, 0, 0, 2⟩ 4]).priorities.sum := by
  constructor
  · rfl
  · exact priority_sum_consistency (prioTransform 1 1) 2
      [.store ⟨0, 0, 0, 0⟩ 1, .store ⟨1, 1, 0, 1⟩ (-2), .update 0 3,
       .store ⟨2, 0, 0, 2⟩ 4] (by rfl)

/-! ### Ring-buffer invariant (C2) -/


theorem toER_perStore (prio : ℚ → ℚ) (s : PERState) (t : Transition) (sig : ℚ) :
    toER (perStore prio s t sig) = erStore (toER s) t := by
  by_cases h : s.next_index < s.buffer.length <;>
    simp [perStore, erStore, toER, h]

theorem toER_perStoreMany (prio : ℚ → ℚ) (s : PERState)
    (ps : List (Transition × ℚ)) :
    toER (perStoreMany prio s ps) = erStoreMany (toER s) (ps.map Prod.fst) := by
  induction ps generalizing s with
  | nil => rfl
  | cons p rest ih =>
      rw [perStoreMany, List.foldl_cons, List.map_cons, erStoreMany,
        List.foldl_cons]
      rw [← toER_perStore prio s p.1 p.2]
      exact ih (perStore prio s p.1 p.2)

theorem erStoreMany_concat (s : ERState) (L : List Transition) (t : Transition) :
    erStoreMany s (L ++ [t]) = erStore (erStoreMany s L) t :=
  List.foldl_concat erStore s t L

/-- If two naturals below `N` share a residue and lie within `B` of each other,
they are equal. -/
theorem mod_eq_of_close (B k N : ℕ) (hk : k < N) (hN : N < k + B)
    (h : k % B = N % B) : False := by
  have hdvd : (B : ℤ) ∣ (N : ℤ) - (k : ℤ) := by
    have : (k : ℤ) % (B : ℤ) = (N : ℤ) % (B : ℤ) := by exact_mod_cast h
    exact Int.ModEq.dvd this
  have hpos : (0 : ℤ) < (N : ℤ) - (k : ℤ) := by
    have hk' : (k : ℤ) < (N : ℤ) := by exact_mod_cast hk
    omega
  have hle : (B : ℤ) ≤ (N : ℤ) - (k : ℤ) := Int.le_of_dvd hpos hdvd
  have hN' : (N : ℤ) < (k : ℤ) + (B : ℤ) := by exact_mod_cast hN
  omega

/-- Core ring invariant: after storing the list `L` into a fresh buffer of
capacity `B ≥ 1`, the capacity is unchanged, the cursor equals
`length L mod B`, the buffer holds `min (length L) B` transitions, and every
slot `k % B` for `k` among the last `B` store positions holds exactly the
`k`-th stored transition. -/
theorem erStoreMany_inv (B : ℕ) (hB : 1 ≤ B) (L : List Transition) :
    (erStoreMany (freshER B) L).buffer_size = B ∧
    (erStoreMany (freshER B) L).next_index = L.length % B ∧
    (erStoreMany (freshER B) L).buffer.length = min L.length B ∧
    ∀ k, k < L.length → L.length ≤ k + B →
      (erStoreMany (freshER B) L).buffer[k % B]? = L[k]? := by
  induction L using List.reverseRecOn with
  | nil =>
      refine ⟨rfl, by simp [erStoreMany, freshER], by simp [erStoreMany, freshER], ?_⟩
      intro k hk hkB
      simp at hk
  | append_singleton L t ih =>
      obtain ⟨hsz, hnext, hlen, hslots⟩ := ih
      rw [erStoreMany_concat]
      by_cases hcap : L.length < B
      · -- still filling: append branch of store
        have hnlt : ¬ (erStoreMany (freshER B) L).next_index <
            (erStoreMany (freshER B) L).buffer.length := by
          rw [hnext, hlen, Nat.mod_eq_of_lt hcap]
          omega
        have hni : (erStoreMany (freshER B) L).next_index = L.length := by
          rw [hnext]
          exact Nat.mod_eq_of_lt hcap
        have hbl : (erStoreMany (freshER B) L).buffer.length = L.length := by
          rw [hlen]
          omega
        refine ⟨by simp [erStore, hnlt, hsz], ?_, ?_, ?_⟩
        · simp only [erStore, if_neg hnlt]
          rw [hsz, hni]
          simp [List.length_append]
        · simp only [erStore, if_neg hnlt]
          simp only [List.length_append, List.length_cons, List.length_nil, hbl]
          omega
        · intro k hk hkB
          simp only [erStore, if_neg hnlt]
          simp only [List.length_append, List.length_cons, List.length_nil] at hk hkB
          by_cases hkN : k = L.length
          · subst hkN
            have hL : (L ++ [t])[L.length]? = some t :=
              List.getElem?_concat_length L t
            have hS : ((erStoreMany (freshER B) L).buffer ++ [t])[L.length % B]? = some t := by
              rw [Nat.mod_eq_of_lt hcap, ← hbl]
              exact List.getElem?_concat_length _ t
            rw [hS, hL]
          · have hklt : k < L.length := by omega
            have h2 : k % B < (erStoreMany (freshER B) L).buffer.length := by
              rw [hbl]
              exact lt_of_le_of_lt (Nat.mod_le k B) hklt
            rw [List.getElem?_append_left h2, List.getElem?_append_left hklt]
            exact hslots k hklt (by omega)
      · -- at capacity: overwrite branch of store
        have hcap' : B ≤ L.length := le_of_not_lt hcap
        have hbl : (erStoreMany (freshER B) L).buffer.length = B := by
          rw [hlen]
          omega
        have hlt : (erStoreMany (freshER B) L).next_index <
            (erStoreMany (freshER B) L).buffer.length := by
          rw [hnext, hbl]
          exact Nat.mod_lt _ (by omega)
        refine ⟨by simp [erStore, hlt, hsz], ?_, ?_, ?_⟩
        · simp only [erStore, if_pos hlt]
          rw [hsz, hnext]
          simp only [List.length_append, List.length_cons, List.length_nil]
          rw [Nat.mod_add_mod]
        · simp only [erStore, if_pos hlt]
          simp only [List.length_set, hbl, List.length_append, List.length_cons,
            List.length_nil]
          omega
        · intro k hk hkB
          simp only [erStore, if_pos hlt]
          simp only [List.length_append, List.length_cons, List.length_nil] at hk hkB
          by_cases hkN : k = L.length
          · subst hkN
            have hL : (L ++ [t])[L.length]? = some t :=
              List.getElem?_concat_length L t
            have hS : ((erStoreMany (freshER B) L).buffer.set
                (erStoreMany (freshER B) L).next_index t)[L.length % B]? = some t := by
              rw [hnext]
              exact List.getElem?_set_self (by
                rw [hbl]
                exact Nat.mod_lt _ (by omega))
            rw [hS, hL]
          · have hklt : k < L.length := by omega
            have hne : (erStoreMany (freshER B) L).next_index ≠ k % B := by
              rw [hnext]
              intro hcontra
              exact mod_eq_of_close B k L.length hklt (by omega) hcontra.symm
            rw [List.getElem?_set_ne hne,
              List.getElem?_append_left hklt]
            exact hslots k hklt (by omega)

/-- C2: for every `buffer_size = B ≥ 1` and every sequence of `N ≥ B` stores
starting from a fresh instance, afterwards the buffer holds exactly `B`
transitions, `next_index = N % B`, every one of the last `B` stored transitions
survives at slot (its store position mod `B`) — so writes overwrite the oldest
slot in cyclic order — and the slot at `next_index` holds the oldest surviving
transition (the one stored at position `N - B`). The prioritized `store`
(inherited by every priority-based policy) keeps exactly the same buffer and
cursor behaviour as the base `ExperienceReplay.store`. -/
theorem ring_invariant (B : ℕ) (prio : ℚ → ℚ) (ps : List (Transition × ℚ))
    (hB : 1 ≤ B) (hN : B ≤ ps.length) :
    (erStoreMany (freshER B) (ps.map Prod.fst)).buffer.length = B ∧
    (erStoreMany (freshER B) (ps.map Prod.fst)).next_index = ps.length % B ∧
    (∀ k, ps.length - B ≤ k → k < ps.length →
      (erStoreMany (freshER B) (ps.map Prod.fst)).buffer[k % B]? =
        (ps.map Prod.fst)[k]?) ∧
    (erStoreMany (freshER B) (ps.map Prod.fst)).buffer[
        (erStoreMany (freshER B) (ps.map Prod.fst)).next_index]? =
      (ps.map Prod.fst)[ps.length - B]? ∧
    (perStoreMany prio (freshPER B) ps).buffer =
      (erStoreMany (freshER B) (ps.map Prod.fst)).buffer ∧
    (perStoreMany prio (freshPER B) ps).next_index =
      (erStoreMany (freshER B) (ps.map Prod.fst)).next_index := by
  obtain ⟨hsz, hnext, hlen, hslots⟩ := erStoreMany_inv B hB (ps.map Prod.fst)
  have hlm : (ps.map Prod.fst).length = ps.length := List.length_map _ _
  rw [hlm] at hnext hlen hslots
  have hproj : toER (perStoreMany prio (freshPER B) ps) =
      erStoreMany (freshER B) (ps.map Prod.fst) := toER_perStoreMany prio _ ps
  refine ⟨by rw [hlen]; omega, hnext, ?_, ?_, ?_, ?_⟩
  · intro k hk1 hk2
    exact hslots k hk2 (by omega)
  · have hmod : (ps.length - B) % B = ps.length % B := by
      have hsum : ps.length - B + B = ps.length := by omega
      conv_rhs => rw [← hsum]
      rw [Nat.add_mod_right]
    have := hslots (ps.length - B) (by omega) (by omega)
    rw [hmod] at this
    rw [hnext]
    exact this
  · exact congrArg ERState.buffer hproj
  · exact congrArg ERState.next_index hproj

/-- Witness for C2 at a concrete input: capacity 2, three stores. -/
theorem ring_invariant_witness :
    1 ≤ 2 ∧ 2 ≤ 3 ∧
      ((erStoreMany (freshER 2) ([((⟨0, 0, 0, 0⟩ : Transition), (1 : ℚ)),
            (⟨1, 0, 0, 0⟩, 1), (⟨2, 0, 0, 0⟩, 1)].map Prod.fst)).buffer.length = 2 ∧
        (erStoreMany (freshER 2) ([((⟨0, 0, 0, 0⟩ : Transition), (1 : ℚ)),
            (⟨1, 0, 0, 0⟩, 1), (⟨2, 0, 0, 0⟩, 1)].map Prod.fst)).next_index =
          [((⟨0, 0, 0, 0⟩ : Transition), (1 : ℚ)), (⟨1, 0, 0, 0⟩, 1),
            (⟨2, 0, 0, 0⟩, 1)].length % 2 ∧
        (∀ k, [((⟨0, 0, 0, 0⟩ : Transition), (1 : ℚ)), (⟨1, 0, 0, 0⟩, 1),
              (⟨2, 0, 0, 0⟩, 1)].length - 2 ≤ k →
            k < [((⟨0, 0, 0, 0⟩ : Transition), (1 : ℚ)), (⟨1, 0, 0, 0⟩, 1),
              (⟨2, 0, 0, 0⟩, 1)].length →
            (erStoreMany (freshER 2) ([((⟨0, 0, 0, 0⟩ : Transition), (1 : ℚ)),
                (⟨1, 0, 0, 0⟩, 1), (⟨2, 0, 0, 0⟩, 1)].map Prod.fst)).buffer[k % 2]? =
              ([((⟨0, 0, 0, 0⟩ : Transition), (1 : ℚ)), (⟨1, 0, 0, 0⟩, 1),
                (⟨2, 0, 0, 0⟩, 1)].map Prod.fst)[k]?) ∧
        (erStoreMany (freshER 2) ([((⟨0, 0, 0, 0⟩ : Transition), (1 : ℚ)),
            (⟨1, 0, 0, 0⟩, 1), (⟨2, 0, 0, 0⟩, 1)].map Prod.fst)).buffer[
            (erStoreMany (freshER 2) ([((⟨0, 0, 0, 0⟩ : Transition), (1 : ℚ)),
              (⟨1, 0, 0, 0⟩, 1), (⟨2, 0, 0, 0⟩, 1)].map Prod.fst)).next_index]? =
          ([((⟨0, 0, 0, 0⟩ : Transition), (1 : ℚ)), (⟨1, 0, 0, 0⟩, 1),
            (⟨2, 0, 0, 0⟩, 1)].map Prod.fst)[
            [((⟨0, 0, 0, 0⟩ : Transition), (1 : ℚ)), (⟨1, 0, 0, 0⟩, 1),
              (⟨2, 0, 0, 0⟩, 1)].length - 2]? ∧
        (perStoreMany (prioTransform 1 1) (freshPER 2)
            [((⟨0, 0, 0, 0⟩ : Transition), (1 : ℚ)), (⟨1, 0, 0, 0⟩, 1),
              (⟨2, 0, 0, 0⟩, 1)]).buffer =
          (erStoreMany (freshER 2) ([((⟨0, 0, 0, 0⟩ : Transition), (1 : ℚ)),
            (⟨1, 0, 0, 0⟩, 1), (⟨2, 0, 0, 0⟩, 1)].map Prod.fst)).buffer ∧
        (perStoreMany (prioTransform 1 1) (freshPER 2)
            [((⟨0, 0, 0, 0⟩ : Transition), (1 : ℚ)), (⟨1, 0, 0, 0⟩, 1),
              (⟨2, 0, 0, 0⟩, 1)]).next_index =
          (erStoreMany (freshER 2) ([((⟨0, 0, 0, 0⟩ : Transition), (1 : ℚ)),
            (⟨1, 0, 0, 0⟩, 1), (⟨2, 0, 0, 0⟩, 1)].map Prod.fst)).next_index) :=
  ⟨by decide, by decide,
   ring_invariant 2 (prioTransform 1 1)
     [((⟨0, 0, 0, 0⟩ : Transition), (1 : ℚ)), (⟨1, 0, 0, 0⟩, 1),
       (⟨2, 0, 0, 0⟩, 1)] (by decide) (by decide)⟩

/-! ### Cumulative-mass inversion (C3) -/

theorem cumsum_length (l : List ℚ) : (cumsum l).length = l.length := by
  induction l with
  | nil => rfl
  | cons x xs ih => simp [cumsum, ih]

theorem cumsum_getElem? (l : List ℚ) (i : ℕ) (h : i < l.length) :
    (cumsum l)[i]? = some ((l.take (i + 1)).sum) := by
  induction l generalizing i with
  | nil => simp at h
  | cons x xs ih =>
      cases i with
      | zero => simp [cumsum]
      | succ j =>
          have hj : j < xs.length := by simpa using h
          simp [cumsum, ih j hj]

theorem cumsum_mem_nonneg : (l : List ℚ) → (∀ a ∈ l, 0 ≤ a) →
    ∀ b ∈ cumsum l, 0 ≤ b
  | [], _, b, hb => by simp [cumsum] at hb
  | x :: xs, h, b, hb => by
      rw [cumsum, List.mem_cons] at hb
      rcases hb with hb | hb
      · rw [hb]
        exact h x (by simp)
      · rw [List.mem_map] at hb
        obtain ⟨y, hy, rfl⟩ := hb
        have h1 : 0 ≤ y :=
          cumsum_mem_nonneg xs (fun a ha => h a (by simp [ha])) y hy
        have h2 : 0 ≤ x := h x (by simp)
        linarith

theorem cumsum_sorted : (l : List ℚ) → (∀ a ∈ l, 0 ≤ a) →
    (cumsum l).Sorted (· ≤ ·)
  | [], _ => by simp [cumsum]
  | x :: xs, h => by
      rw [cumsum, List.sorted_cons]
      constructor
      · intro b hb
        rw [List.mem_map] at hb
        obtain ⟨y, hy, rfl⟩ := hb
        have h1 : 0 ≤ y :=
          cumsum_mem_nonneg xs (fun a ha => h a (by simp [ha])) y hy
        linarith
      · have hs := cumsum_sorted xs (fun a ha => h a (by simp [ha]))
        exact hs.map _ (fun a b hab => by simpa using add_le_add_left hab x)

/-- In a sorted prefix-sum list, every position before the strict-less count
holds an entry strictly below the draw. -/
theorem sorted_countP_lt : (c : List ℚ) → c.Sorted (· ≤ ·) → (u : ℚ) →
    ∀ j, j < c.countP (fun x => decide (x < u)) →
      ∃ h : j < c.length, c.get ⟨j, h⟩ < u
  | [], _, u, j, hj => by simp at hj
  | x :: xs, hc, u, j, hj => by
      rw [List.sorted_cons] at hc
      obtain ⟨hx, hxs⟩ := hc
      by_cases hxu : x < u
      · have hcnt : (x :: xs).countP (fun y => decide (y < u)) =
            xs.countP (fun y => decide (y < u)) + 1 := by
          rw [List.countP_cons]
          simp [hxu]
        rw [hcnt] at hj
        cases j with
        | zero => exact ⟨by simp, by simpa using hxu⟩
        | succ i =>
            obtain ⟨hlt, hval⟩ := sorted_countP_lt xs hxs u i (by omega)
            exact ⟨by simpa using Nat.succ_lt_succ hlt, by simpa using hval⟩
      · have h0 : (x :: xs).countP (fun y => decide (y < u)) = 0 := by
          rw [List.countP_eq_zero]
          intro a ha
          rw [List.mem_cons] at ha
          rcases ha with rfl | ha
          · simpa using hxu
          · have hle : x ≤ a := hx a ha
            simp only [decide_eq_true_eq]
            intro hau
            exact hxu (lt_of_le_of_lt hle hau)
        omega

/-- In a sorted prefix-sum list, the entry at the strict-less count (when it
exists) is at least the draw. -/
theorem sorted_countP_ge : (c : List ℚ) → c.Sorted (· ≤ ·) → (u : ℚ) →
    (h : c.countP (fun x => decide (x < u)) < c.length) →
    u ≤ c.get ⟨c.countP (fun x => decide (x < u)), h⟩
  | [], _, u, h => by simp at h
  | x :: xs, hc, u, h => by
      rw [List.sorted_cons] at hc
      obtain ⟨hx, hxs⟩ := hc
      by_cases hxu : x < u
      · have hcnt : (x :: xs).countP (fun y => decide (y < u)) =
            xs.countP (fun y => decide (y < u)) + 1 := by
          rw [List.countP_cons]
          simp [hxu]
        have hlt : xs.countP (fun y => decide (y < u)) < xs.length := by
          rw [hcnt] at h
          simpa using h
        have hrec := sorted_countP_ge xs hxs u hlt
        simp only [hcnt]
        simpa using hrec
      · have h0 : (x :: xs).countP (fun y => decide (y < u)) = 0 := by
          rw [List.countP_eq_zero]
          intro a ha
          rw [List.mem_cons] at ha
          rcases ha with rfl | ha
          · simpa using hxu
          · have hle : x ≤ a := hx a ha
            simp only [decide_eq_true_eq]
            intro hau
            exact hxu (lt_of_le_of_lt hle hau)
        simp only [h0]
        simpa using not_lt.mp hxu

theorem sum_map_div (l : List ℚ) (c : ℚ) :
    (l.map (fun x => x / c)).sum = l.sum / c := by
  induction l with
  | nil => simp
  | cons x xs ih => simp [ih, add_div]

theorem countP_lt_length_of_nonsat (c : List ℚ) (u x : ℚ) (hx : x ∈ c)
    (hxu : ¬ x < u) : c.countP (fun y => decide (y < u)) < c.length := by
  have hle : c.countP (fun y => decide (y < u)) ≤ c.length :=
    List.countP_le_length _
  rcases lt_or_eq_of_le hle with hlt | heq
  · exact hlt
  · exfalso
    have := List.countP_eq_length.mp heq x hx
    simp only [decide_eq_true_eq] at this
    exact hxu this

theorem mem_of_getElem_eq_some {α : Type} (l : List α) (i : ℕ) (a : α)
    (h : l[i]? = some a) : a ∈ l := by
  have hi : i < l.length := by
    by_contra hc
    rw [List.getElem?_eq_none (by omega)] at h
    simp at h
  rw [List.getElem?_eq_getElem hi, Option.some_inj] at h
  rw [← h]
  exact List.getElem_mem hi

/-- C3: for a non-empty buffer with non-negative priorities, a consistent
positive priority sum and a draw `u ∈ [0,1)`, `sample()` returns the count of
cumulative-mass entries strictly below `u` (the mass function being each
priority divided by `priority_sum`, the cumulative masses its prefix sums),
that count is a valid index, the cumulative mass at the returned index reaches
`u`, and every earlier cumulative mass is strictly below `u` — the returned
index is the first whose cumulative mass reaches the draw (inverse CDF). -/
theorem sample_inverts_cdf (s : PERState) (u : ℚ)
    (hne : s.priorities ≠ [])
    (hnn : ∀ p ∈ s.priorities, 0 ≤ p)
    (hsum : s.priority_sum = s.priorities.sum)
    (hpos : 0 < s.priority_sum)
    (hu0 : 0 ≤ u) (hu1 : u < 1) :
    perSample s u = (cumsum (pmfOf s)).countP (fun x => decide (x < u)) ∧
    perSample s u < s.priorities.length ∧
    u ≤ ((pmfOf s).take (perSample s u + 1)).sum ∧
    ∀ j < perSample s u, ((pmfOf s).take (j + 1)).sum < u := by
  have hpmf_nn : ∀ x ∈ pmfOf s, 0 ≤ x := by
    intro x hx
    rw [pmfOf, List.mem_map] at hx
    obtain ⟨p, hp, rfl⟩ := hx
    exact div_nonneg (hnn p hp) hpos.le
  have hsort := cumsum_sorted (pmfOf s) hpmf_nn
  have hlenp : (pmfOf s).length = s.priorities.length := List.length_map _ _
  have hlenc : (cumsum (pmfOf s)).length = s.priorities.length := by
    rw [cumsum_length, hlenp]
  have htot : (pmfOf s).sum = 1 := by
    rw [pmfOf, sum_map_div, ← hsum, div_self hpos.ne']
  have hn : 0 < s.priorities.length := List.length_pos.mpr hne
  have hlast : (cumsum (pmfOf s))[s.priorities.length - 1]? = some 1 := by
    rw [cumsum_getElem? (pmfOf s) (s.priorities.length - 1) (by rw [hlenp]; omega)]
    have hidx : s.priorities.length - 1 + 1 = (pmfOf s).length := by
      rw [hlenp]
      omega
    rw [hidx, List.take_length, htot]
  have hmem : (1 : ℚ) ∈ cumsum (pmfOf s) :=
    mem_of_getElem_eq_some _ _ _ hlast
  have hklt : perSample s u < s.priorities.length := by
    rw [← hlenc]
    exact countP_lt_length_of_nonsat _ u 1 hmem (not_lt.mpr hu1.le)
  have hkltc : perSample s u < (cumsum (pmfOf s)).length := by
    rw [hlenc]
    exact hklt
  refine ⟨rfl, hklt, ?_, ?_⟩
  · have hge := sorted_countP_ge (cumsum (pmfOf s)) hsort u hkltc
    have hval : (cumsum (pmfOf s)).get ⟨perSample s u, hkltc⟩ =
        ((pmfOf s).take (perSample s u + 1)).sum := by
      have h2 := cumsum_getElem? (pmfOf s) (perSample s u) (by rw [hlenp]; exact hklt)
      rw [List.getElem?_eq_getElem hkltc, Option.some_inj] at h2
      rw [List.get_eq_getElem]
      exact h2
    have hge2 : u ≤ (cumsum (pmfOf s)).get ⟨perSample s u, hkltc⟩ := hge
    rw [hval] at hge2
    exact hge2
  · intro j hj
    obtain ⟨hlt, hval⟩ := sorted_countP_lt (cumsum (pmfOf s)) hsort u j hj
    have h2 := cumsum_getElem? (pmfOf s) j (by rw [hlenp, ← hlenc]; omega)
    rw [List.getElem?_eq_getElem hlt, Option.some_inj] at h2
    rw [List.get_eq_getElem] at hval
    rw [← h2]
    exact hval


/-- Witness for C3 at the concrete state and draw `u = 0`. -/
theorem sample_inverts_cdf_witness :
    cdfWitnessState.priorities ≠ [] ∧
    (∀ p ∈ cdfWitnessState.priorities, 0 ≤ p) ∧
    cdfWitnessState.priority_sum = cdfWitnessState.priorities.sum ∧
    0 < cdfWitnessState.priority_sum ∧ (0 : ℚ) ≤ 0 ∧ (0 : ℚ) < 1 ∧
    (perSample cdfWitnessState 0 =
        (cumsum (pmfOf cdfWitnessState)).countP (fun x => decide (x < 0)) ∧
      perSample cdfWitnessState 0 < cdfWitnessState.priorities.length ∧
      (0 : ℚ) ≤ ((pmfOf cdfWitnessState).take (perSample cdfWitnessState 0 + 1)).sum ∧
      ∀ j < perSample cdfWitnessState 0,
        ((pmfOf cdfWitnessState).take (j + 1)).sum < 0) :=
  ⟨by simp [cdfWitnessState], by simp [cdfWitnessState], rfl,
   by simp [cdfWitnessState], le_refl 0, zero_lt_one,
   sample_inverts_cdf cdfWitnessState 0 (by simp [cdfWitnessState])
     (by simp [cdfWitnessState]) rfl (by simp [cdfWitnessState]) (le_refl 0)
     zero_lt_one⟩

/-! ### Rarity-weighted sampling (C6) -/


theorem rarityModified_pos (s : PERState) (F : ℕ → ℕ → ℚ)
    (hlen : s.priorities.length = s.buffer.length)
    (hpos : ∀ p ∈ s.priorities, 0 < p)
    (hFpos : ∀ t ∈ s.buffer, 0 < F t.state t.action) :
    ∀ x ∈ rarityModified s F, 0 < x := by
  intro x hx
  rw [List.mem_iff_getElem?] at hx
  obtain ⟨k, hk⟩ := hx
  have hklen : k < (rarityModified s F).length := by
    by_contra hc
    rw [List.getElem?_eq_none (by omega)] at hk
    simp at hk
  have hkp : k < s.priorities.length := by
    rw [rarityModified, List.length_zipWith] at hklen
    omega
  have hkb : k < s.buffer.length := by
    rw [← hlen]
    exact hkp
  have hw : (rarityWeights F s.buffer)[k]? =
      some (1 / (F (s.buffer.get ⟨k, hkb⟩).state (s.buffer.get ⟨k, hkb⟩).action) ^ 1) := by
    rw [rarityWeights, List.getElem?_map, List.getElem?_eq_getElem hkb]
    rfl
  have hp : s.priorities[k]? = some (s.priorities.get ⟨k, hkp⟩) := by
    rw [List.getElem?_eq_getElem hkp]
    rfl
  rw [rarityModified, List.getElem?_zipWith, hp, hw] at hk
  simp only [Option.some_inj] at hk
  rw [← hk]
  apply mul_pos
  · apply hpos
    rw [List.get_eq_getElem]
    exact List.getElem_mem hkp
  · apply div_pos one_pos
    apply pow_pos
    apply hFpos
    rw [List.get_eq_getElem]
    exact List.getElem_mem hkb

/-- C6: the Rarity policy weights each buffered transition by its priority
times `1 / F[state, action]` and normalizes over that modified vector, so for
two buffered transitions with equal priority and occurrence counts 1 and 10,
the pmf entry of the first is exactly 10 times that of the second (and both
entries exist and are positive). -/
theorem rarity_tenfold_boost (s : PERState) (F : ℕ → ℕ → ℚ) (i j : ℕ)
    (ti tj : Transition) (pi pj : ℚ)
    (hlen : s.priorities.length = s.buffer.length)
    (hpos : ∀ p ∈ s.priorities, 0 < p)
    (hFpos : ∀ t ∈ s.buffer, 0 < F t.state t.action)
    (hti : s.buffer[i]? = some ti) (htj : s.buffer[j]? = some tj)
    (hpi : s.priorities[i]? = some pi) (hpj : s.priorities[j]? = some pj)
    (heq : pi = pj)
    (hFi : F ti.state ti.action = 1) (hFj : F tj.state tj.action = 10) :
    ∃ qi qj, (rarityPmf s F)[i]? = some qi ∧ (rarityPmf s F)[j]? = some qj ∧
      0 < qj ∧ qi = 10 * qj := by
  have hwi : (rarityWeights F s.buffer)[i]? =
      some (1 / (F ti.state ti.action) ^ 1) := by
    rw [rarityWeights, List.getElem?_map, hti]
    rfl
  have hwj : (rarityWeights F s.buffer)[j]? =
      some (1 / (F tj.state tj.action) ^ 1) := by
    rw [rarityWeights, List.getElem?_map, htj]
    rfl
  have hmi : (rarityModified s F)[i]? =
      some (pi * (1 / (F ti.state ti.action) ^ 1)) := by
    rw [rarityModified, List.getElem?_zipWith, hpi, hwi]
  have hmj : (rarityModified s F)[j]? =
      some (pj * (1 / (F tj.state tj.action) ^ 1)) := by
    rw [rarityModified, List.getElem?_zipWith, hpj, hwj]
  have hne : rarityModified s F ≠ [] := by
    intro hnil
    rw [hnil] at hmi
    simp at hmi
  have hMpos : 0 < (rarityModified s F).sum :=
    List.sum_pos _ (rarityModified_pos s F hlen hpos hFpos) hne
  have hqi : (rarityPmf s F)[i]? =
      some (pi * (1 / (F ti.state ti.action) ^ 1) / (rarityModified s F).sum) := by
    rw [rarityPmf, List.getElem?_map, hmi]
    rfl
  have hqj : (rarityPmf s F)[j]? =
      some (pj * (1 / (F tj.state tj.action) ^ 1) / (rarityModified s F).sum) := by
    rw [rarityPmf, List.getElem?_map, hmj]
    rfl
  have hpjpos : 0 < pj := hpos pj (mem_of_getElem_eq_some _ _ _ hpj)
  refine ⟨pi * (1 / (F ti.state ti.action) ^ 1) / (rarityModified s F).sum,
    pj * (1 / (F tj.state tj.action) ^ 1) / (rarityModified s F).sum,
    hqi, hqj, ?_, ?_⟩
  · apply div_pos _ hMpos
    apply mul_pos hpjpos
    apply div_pos one_pos
    apply pow_pos
    rw [hFj]
    norm_num
  · rw [hFi, hFj, heq]
    field_simp
    ring


/-- Witness for C6 at a concrete state. -/
theorem rarity_tenfold_boost_witness :
    rarityWitnessState.priorities.length = rarityWitnessState.buffer.length ∧
    (∀ p ∈ rarityWitnessState.priorities, 0 < p) ∧
    (∀ t ∈ rarityWitnessState.buffer, 0 < rarityWitnessF t.state t.action) ∧
    rarityWitnessState.buffer[0]? = some ⟨0, 0, 0, 0⟩ ∧
    rarityWitnessState.buffer[1]? = some ⟨1, 0, 0, 1⟩ ∧
    rarityWitnessState.priorities[0]? = some 2 ∧
    rarityWitnessState.priorities[1]? = some 2 ∧
    (2 : ℚ) = 2 ∧
    rarityWitnessF (0 : ℕ) (0 : ℕ) = 1 ∧ rarityWitnessF (1 : ℕ) (0 : ℕ) = 10 ∧
    (∃ qi qj, (rarityPmf rarityWitnessState rarityWitnessF)[(0 : ℕ)]? = some qi ∧
      (rarityPmf rarityWitnessState rarityWitnessF)[(1 : ℕ)]? = some qj ∧
      0 < qj ∧ qi = 10 * qj) :=
  ⟨rfl, by simp [rarityWitnessState], by simp [rarityWitnessState, rarityWitnessF],
   rfl, rfl, rfl, rfl, rfl, rfl, rfl,
   rarity_tenfold_boost rarityWitnessState rarityWitnessF 0 1 ⟨0, 0, 0, 0⟩
     ⟨1, 0, 0, 1⟩ 2 2 rfl (by simp [rarityWitnessState])
     (by simp [rarityWitnessState, rarityWitnessF]) rfl rfl rfl rfl rfl rfl rfl⟩

/-! ### Threshold-gated sampling (C5) -/


theorem sum_eq_zero_of_nonneg_iff : (l : List ℚ) → (∀ x ∈ l, 0 ≤ x) →
    (l.sum = 0 ↔ ∀ x ∈ l, x = 0)
  | [], _ => by simp
  | x :: xs, h => by
      have hx : 0 ≤ x := h x (by simp)
      have hxs : 0 ≤ xs.sum := List.sum_nonneg (fun a ha => h a (by simp [ha]))
      rw [List.sum_cons]
      constructor
      · intro h0
        have hx0 : x = 0 ∧ xs.sum = 0 := by constructor <;> linarith
        intro a ha
        rw [List.mem_cons] at ha
        rcases ha with rfl | ha
        · exact hx0.1
        · exact ((sum_eq_zero_of_nonneg_iff xs
            (fun b hb => h b (by simp [hb]))).mp hx0.2) a ha
      · intro hall
        have hx0 : x = 0 := hall x (by simp)
        have hxs0 : xs.sum = 0 := (sum_eq_zero_of_nonneg_iff xs
          (fun b hb => h b (by simp [hb]))).mpr (fun a ha => hall a (by simp [ha]))
        rw [hx0, hxs0, add_zero]

theorem thresholdModified_nonneg (s : PERState) (U : ℕ → ℕ → ℕ) (th : ℕ)
    (hpos : ∀ p ∈ s.priorities, 0 < p) :
    ∀ x ∈ thresholdModified s U th, 0 ≤ x := by
  intro x hx
  rw [List.mem_iff_getElem?] at hx
  obtain ⟨k, hk⟩ := hx
  have hklen : k < (thresholdModified s U th).length := by
    by_contra hc
    rw [List.getElem?_eq_none (by omega)] at hk
    simp at hk
  have hkp : k < s.priorities.length := by
    rw [thresholdModified, List.length_zipWith] at hklen
    omega
  have hkb : k < (thresholdMask U th s.buffer).length := by
    rw [thresholdModified, List.length_zipWith] at hklen
    omega
  rw [thresholdModified, List.getElem?_zipWith, List.getElem?_eq_getElem hkp,
    List.getElem?_eq_getElem hkb] at hk
  simp only [Option.some_inj] at hk
  rw [← hk]
  apply mul_nonneg
  · exact (hpos _ (List.getElem_mem hkp)).le
  · have hmask : ∀ m ∈ thresholdMask U th s.buffer, 0 ≤ m := by
      intro m hm
      rw [thresholdMask, List.mem_map] at hm
      obtain ⟨t, _, rfl⟩ := hm
      split
      · exact zero_le_one
      · exact le_refl 0
    exact hmask _ (List.getElem_mem hkb)

theorem cumsum_countP_lt_length (l : List ℚ) (u : ℚ)
    (hnn : ∀ x ∈ l, 0 ≤ x) (htot : l.sum = 1) (hne : l ≠ []) (hu1 : u < 1) :
    (cumsum l).countP (fun x => decide (x < u)) < l.length := by
  have hn : 0 < l.length := List.length_pos.mpr hne
  have hlast : (cumsum l)[l.length - 1]? = some 1 := by
    rw [cumsum_getElem? l (l.length - 1) (by omega)]
    have hidx : l.length - 1 + 1 = l.length := by omega
    rw [hidx, List.take_length, htot]
  have hmem := mem_of_getElem_eq_some _ _ _ hlast
  have hres := countP_lt_length_of_nonsat (cumsum l) u 1 hmem (not_lt.mpr hu1.le)
  rw [cumsum_length] at hres
  exact hres

theorem lt_length_of_getElem_eq_some {α : Type} (l : List α) (i : ℕ) (a : α)
    (h : l[i]? = some a) : i < l.length := by
  by_contra hc
  rw [List.getElem?_eq_none (by omega)] at h
  simp at h

/-- C5: for the Threshold policy on a non-empty buffer with positive
priorities, the masked-priority sum vanishes exactly when every buffered
(state, action) pair has reached the sampling quota; `sample()` always
succeeds, returning an in-range index together with the occurrence table in
which exactly the sampled pair's count is incremented by one; and when the
masked sum is zero the chosen index is the one the base priority-weighted
`sample()` would draw from the unmasked distribution (graceful fallback). -/
theorem threshold_quota_fallback (s : PERState) (U : ℕ → ℕ → ℕ) (th : ℕ)
    (u : ℚ)
    (hlen : s.priorities.length = s.buffer.length)
    (hpos : ∀ p ∈ s.priorities, 0 < p)
    (hne : s.buffer ≠ [])
    (hsum : s.priority_sum = s.priorities.sum)
    (hu0 : 0 ≤ u) (hu1 : u < 1) :
    ((thresholdModified s U th).sum = 0 ↔
      ∀ t ∈ s.buffer, th ≤ U t.state t.action) ∧
    (∃ t, s.buffer[thresholdIdx s U th u]? = some t ∧
      thresholdSample s U th u = some (thresholdIdx s U th u,
        fun a b => if a = t.state ∧ b = t.action then U a b + 1 else U a b)) ∧
    ((thresholdModified s U th).sum = 0 →
      thresholdIdx s U th u = perSample s u) := by
  have hblen0 : 0 < s.buffer.length := List.length_pos.mpr hne
  have hplen0 : 0 < s.priorities.length := by
    rw [hlen]
    exact hblen0
  have hpne : s.priorities ≠ [] := List.ne_nil_of_length_pos hplen0
  have hpsum_pos : 0 < s.priorities.sum := List.sum_pos _ hpos hpne
  refine ⟨?_, ?_, ?_⟩
  · rw [sum_eq_zero_of_nonneg_iff _ (thresholdModified_nonneg s U th hpos)]
    constructor
    · intro hall t ht
      by_contra hlt
      push_neg at hlt
      rw [List.mem_iff_getElem?] at ht
      obtain ⟨k, hk⟩ := ht
      have hkb : k < s.buffer.length := lt_length_of_getElem_eq_some _ _ _ hk
      have hkp : k < s.priorities.length := by
        rw [hlen]
        exact hkb
      have hmaskk : (thresholdMask U th s.buffer)[k]? = some 1 := by
        rw [thresholdMask, List.getElem?_map, hk]
        simp [hlt]
      have hentry : (thresholdModified s U th)[k]? =
          some (s.priorities[k] * 1) := by
        rw [thresholdModified, List.getElem?_zipWith,
          List.getElem?_eq_getElem hkp, hmaskk]
      have hmem := mem_of_getElem_eq_some _ _ _ hentry
      have hzero := hall _ hmem
      rw [mul_one] at hzero
      exact absurd hzero (ne_of_gt (hpos _ (List.getElem_mem hkp)))
    · intro hq x hx
      rw [List.mem_iff_getElem?] at hx
      obtain ⟨k, hk⟩ := hx
      have hklen := lt_length_of_getElem_eq_some _ _ _ hk
      have hkp : k < s.priorities.length := by
        rw [thresholdModified, List.length_zipWith] at hklen
        omega
      have hkb : k < s.buffer.length := hlen ▸ hkp
      have hquota := hq _ (List.getElem_mem hkb)
      have hmaskk : (thresholdMask U th s.buffer)[k]? = some 0 := by
        rw [thresholdMask, List.getElem?_map, List.getElem?_eq_getElem hkb]
        simp [not_lt.mpr hquota]
      have hentry : (thresholdModified s U th)[k]? =
          some (s.priorities[k] * 0) := by
        rw [thresholdModified, List.getElem?_zipWith,
          List.getElem?_eq_getElem hkp, hmaskk]
      rw [hk] at hentry
      simp only [Option.some_inj, mul_zero] at hentry
      exact hentry
  · have hidxlt : thresholdIdx s U th u < s.buffer.length := by
      rw [thresholdIdx]
      by_cases h0 : (thresholdModified s U th).sum = 0
      · rw [thresholdPmf, if_pos h0]
        have hres := cumsum_countP_lt_length
          (s.priorities.map (fun p => p / s.priorities.sum)) u ?_ ?_ ?_ hu1
        · rw [List.length_map, hlen] at hres
          exact hres
        · intro x hx
          rw [List.mem_map] at hx
          obtain ⟨p, hp, rfl⟩ := hx
          exact div_nonneg (hpos p hp).le hpsum_pos.le
        · rw [sum_map_div, div_self hpsum_pos.ne']
        · apply List.ne_nil_of_length_pos
          rw [List.length_map]
          exact hplen0
      · rw [thresholdPmf, if_neg h0]
        have hmnn := thresholdModified_nonneg s U th hpos
        have hmsum_pos : 0 < (thresholdModified s U th).sum :=
          lt_of_le_of_ne (List.sum_nonneg hmnn) (Ne.symm h0)
        have hmlen : (thresholdModified s U th).length = s.buffer.length := by
          rw [thresholdModified, List.length_zipWith, thresholdMask,
            List.length_map, hlen]
          exact min_self _
        have hres := cumsum_countP_lt_length
          ((thresholdModified s U th).map
            (fun p => p / (thresholdModified s U th).sum)) u ?_ ?_ ?_ hu1
        · rw [List.length_map, hmlen] at hres
          exact hres
        · intro x hx
          rw [List.mem_map] at hx
          obtain ⟨p, hp, rfl⟩ := hx
          exact div_nonneg (hmnn p hp) hmsum_pos.le
        · rw [sum_map_div, div_self hmsum_pos.ne']
        · apply List.ne_nil_of_length_pos
          rw [List.length_map, hmlen]
          exact hblen0
    refine ⟨_, List.getElem?_eq_getElem hidxlt, ?_⟩
    simp [thresholdSample, List.getElem?_eq_getElem hidxlt]
  · intro h0
    rw [thresholdIdx, thresholdPmf, if_pos h0, perSample, pmfOf, hsum]

/-- Witness for C5 at a concrete one-slot state, a fresh sampling-count table,
threshold 1 and draw `u = 0`. -/
theorem threshold_quota_fallback_witness :
    cdfWitnessState.priorities.length = cdfWitnessState.buffer.length ∧
    (∀ p ∈ cdfWitnessState.priorities, 0 < p) ∧
    cdfWitnessState.buffer ≠ [] ∧
    cdfWitnessState.priority_sum = cdfWitnessState.priorities.sum ∧
    (0 : ℚ) ≤ 0 ∧ (0 : ℚ) < 1 ∧
    (((thresholdModified cdfWitnessState (fun _ _ => 0) 1).sum = 0 ↔
        ∀ t ∈ cdfWitnessState.buffer, 1 ≤ (fun _ _ => (0 : ℕ)) t.state t.action) ∧
      (∃ t, cdfWitnessState.buffer[
          thresholdIdx cdfWitnessState (fun _ _ => 0) 1 0]? = some t ∧
        thresholdSample cdfWitnessState (fun _ _ => 0) 1 0 =
          some (thresholdIdx cdfWitnessState (fun _ _ => 0) 1 0,
            fun a b => if a = t.state ∧ b = t.action then
              (fun _ _ => (0 : ℕ)) a b + 1 else (fun _ _ => (0 : ℕ)) a b)) ∧
      ((thresholdModified cdfWitnessState (fun _ _ => 0) 1).sum = 0 →
        thresholdIdx cdfWitnessState (fun _ _ => 0) 1 0 =
          perSample cdfWitnessState 0)) :=
  ⟨rfl, by simp [cdfWitnessState], by simp [cdfWitnessState], rfl, le_refl 0,
   zero_lt_one,
   threshold_quota_fallback cdfWitnessState (fun _ _ => 0) 1 0 rfl
     (by simp [cdfWitnessState]) (by simp [cdfWitnessState]) rfl (le_refl 0)
     zero_lt_one⟩

/-! ### Empty-buffer sampling (C8) and index checking (C9) -/

/-- C8 counterexample: with zero stored transitions the priority-weighted
`sample()` does not fail — the pmf comprehension, `np.cumsum` and the
comparison all operate on empty arrays and `sample()` returns the index 0.
The Rarity override behaves the same way. This refutes the claim that every
policy fails fast with an empty-buffer error. -/
theorem empty_buffer_sample_counterexample :
    perSample (freshPER 3) (1/2) = 0 ∧
      raritySample (freshPER 3) (fun _ _ => 1) (1/2) = 0 := by
  constructor <;> rfl

/-- C8 (amended): on an empty buffer only the uniform policy's `sample()`
fails (`np.random.randint` on an empty range raises) and the Threshold
override fails (its final `self.buffer[idx]` lookup raises an index error);
the base priority-weighted and Rarity samplers return index 0 without any
error. -/
theorem empty_buffer_sample_behaviour (B : ℕ) (r : ℕ) (u : ℚ)
    (F : ℕ → ℕ → ℚ) (U : ℕ → ℕ → ℕ) (th : ℕ) :
    erSample (freshER B) r = none ∧
    thresholdSample (freshPER B) U th u = none ∧
    perSample (freshPER B) u = 0 ∧
    raritySample (freshPER B) F u = 0 := by
  refine ⟨rfl, ?_, rfl, rfl⟩
  simp [thresholdSample, thresholdIdx, thresholdPmf, thresholdModified,
    thresholdMask, freshPER, cumsum]

/-- C9 counterexample: `updatePriority` with the out-of-`[0, len)` index `-1`
on a one-element priority table does not fail: Python's negative indexing
aliases slot `len - 1`, so the call succeeds and rewrites that priority. -/
theorem updatePriority_negative_index_counterexample :
    (-1 : ℤ) < 0 ∧
    (perUpdatePriorityChecked (prioTransform 1 (1/100))
        (perStore (prioTransform 1 (1/100)) (freshPER 1) ⟨0, 0, 0, 0⟩ 1)
        (-1) 2).isSome = true ∧
    (perUpdatePriorityChecked (prioTransform 1 (1/100))
        (perStore (prioTransform 1 (1/100)) (freshPER 1) ⟨0, 0, 0, 0⟩ 1)
        (-1) 2).map PERState.priorities ≠
      some (perStore (prioTransform 1 (1/100)) (freshPER 1) ⟨0, 0, 0, 0⟩ 1).priorities := by
  refine ⟨by norm_num, ?_, ?_⟩
  · rfl
  · norm_num [perUpdatePriorityChecked, pyIndex, perUpdatePriority, perStore,
      freshPER, prioTransform]

/-- C9 (amended): `updatePriority` fails immediately — before any priority or
the cached sum is modified, since the raising subscript is evaluated first —
exactly when the index falls outside Python's accepted range `[-len, len)`;
indices in `[-len, 0)` alias slot `len + idx` and succeed. -/
theorem updatePriority_out_of_range (prio : ℚ → ℚ) (s : PERState) (i : ℤ)
    (sig : ℚ)
    (h : (s.priorities.length : ℤ) ≤ i ∨ i < -(s.priorities.length : ℤ)) :
    perUpdatePriorityChecked prio s i sig = none := by
  have hnone : pyIndex s.priorities.length i = none := by
    rw [pyIndex, if_neg (by omega), if_neg (by omega)]
  simp [perUpdatePriorityChecked, hnone]

/-- Witness for the amended C9: index 0 on an empty priority table. -/
theorem updatePriority_out_of_range_witness :
    (((freshPER 1).priorities.length : ℤ) ≤ 0 ∨
      (0 : ℤ) < -((freshPER 1).priorities.length : ℤ)) ∧
    perUpdatePriorityChecked (prioTransform 1 (1/100)) (freshPER 1) 0 5 = none :=
  ⟨Or.inl (by decide),
   updatePriority_out_of_range (prioTransform 1 (1/100)) (freshPER 1) 0 5
     (Or.inl (by decide))⟩
